import Mathlib

/-!
Shallow embedding of the virtual-memory simulator (`simulador_v3.py`, the
canonical variant of the repository) together with proofs of the behavioural
claims about it.

Python dictionaries are modelled as insertion-ordered association lists
(`List (Nat × α)`), which matches CPython's guaranteed iteration order.
`sys.exit` / uncaught exceptions inside the translation path are modelled by
an `Except SimError` result.  The `BACKING_STORE.bin` file is modelled as a
total function `store : Nat → Nat` from byte offsets to byte values.
-/

/-- The abort modes of the simulator core: `policyError` models the
`sys.exit(1)` on the "Algoritmo inválido." branch of `tratar_page_fault`;
`memError` models any uncaught data error (KeyError on the page table,
IndexError / TypeError when reading physical memory, `pop(0)` or `min` on an
empty structure). -/
inductive SimError where
  | policyError : SimError
  | memError : SimError
deriving DecidableEq, Repr

/-- Lookup in an insertion-ordered dictionary (first matching key wins;
Python dictionaries never hold duplicate keys). -/
def dictGet {α : Type} : List (Nat × α) → Nat → Option α
  | [], _ => none
  | (k', v) :: rest, k => if k' = k then some v else dictGet rest k

/-- `d[k] = v` on an insertion-ordered dictionary: replace the value in place
if the key is present (keeping its position), otherwise append at the end. -/
def dictSet {α : Type} : List (Nat × α) → Nat → α → List (Nat × α)
  | [], k, v => [(k, v)]
  | (k', v') :: rest, k, v =>
      if k' = k then (k, v) :: rest else (k', v') :: dictSet rest k v

/-- `del d[k]` on an insertion-ordered dictionary. -/
def dictDel {α : Type} (d : List (Nat × α)) (k : Nat) : List (Nat × α) :=
  d.filter (fun e => e.1 ≠ k)

/-- `min(d, key=d.get)` on an insertion-ordered dictionary: the first entry
having the minimum value (Python's `min` keeps the earliest of equals). -/
def minByKey : List (Nat × Nat) → Option (Nat × Nat)
  | [] => none
  | e :: rest =>
      match minByKey rest with
      | none => some e
      | some b => if b.2 < e.2 then some b else some e

/-- `l.index(None)` guarded by `None in l`: index of the first `none`. -/
def index_none : List (Option Nat) → Option Nat
  | [] => none
  | none :: _ => some 0
  | some _ :: rest => (index_none rest).map (· + 1)

/-- The signed-byte reinterpretation performed by `ler_memoria`
(line `return byte_value - 256 if byte_value > 127 else byte_value`). -/
def to_signed (b : Nat) : Int :=
  if b > 127 then (b : Int) - 256 else (b : Int)

/-- `carrega_pagina`: the `page_size` bytes of the backing store starting at
byte offset `pagina * page_size` (`seek(pagina * page_size)` followed by
`read(page_size)`). -/
def carrega_pagina (page_size : Nat) (store : Nat → Nat) (pagina : Nat) : List Nat :=
  (List.range page_size).map (fun i => store (pagina * page_size + i))

/-- `pagina = endereco_virtual >> offset_bits` (after masking, in v3). -/
def obter_pagina (offset_bits : Nat) (endereco : Nat) : Nat :=
  endereco >>> offset_bits

/-- `offset = endereco_virtual & ((1 << offset_bits) - 1)`. -/
def obter_offset (offset_bits : Nat) (endereco : Nat) : Nat :=
  endereco &&& ((1 <<< offset_bits) - 1)

/-- The state of `MemoryManager` (`simulador_v3.py`).  The open backing-store
file handle is external state and is passed separately to the operations. -/
structure MemoryManager where
  num_quadros : Nat
  algoritmo : String
  page_size : Nat
  offset_bits : Nat
  /-- page number ↦ (`'quadro'`, `'valido'`) -/
  page_table : List (Nat × Nat × Bool)
  /-- list of (`'pagina'`, `'quadro'`) entries -/
  tlb : List (Nat × Nat)
  tlb_size : Nat
  /-- which page occupies each frame (`None` if free) -/
  quadros : List (Option Nat)
  /-- bytes held by each frame (`None` until first load) -/
  physical_memory : List (Option (List Nat))
  fifo_queue : List Nat
  /-- page ↦ timestamp, insertion-ordered -/
  uso_recente : List (Nat × Nat)
  tlb_hits : Nat
  page_faults : Nat
  acessos : Nat
  clock : Nat
deriving DecidableEq, Repr

/-- Python's `str.upper()` restricted to its ASCII behaviour (all the policy
names the simulator compares against are ASCII). -/
def pyUpper (s : String) : String := String.mk (s.data.map Char.toUpper)

/-- `MemoryManager.__init__` (the part that is state; the file open is
external).  Note: the constructor performs **no** validation of
`algoritmo` — it merely upper-cases it. -/
def initState (num_quadros : Nat) (algoritmo : String) : MemoryManager where
  num_quadros := num_quadros
  algoritmo := pyUpper algoritmo
  page_size := 256
  offset_bits := 8
  page_table := []
  tlb := []
  tlb_size := 16
  quadros := List.replicate num_quadros none
  physical_memory := List.replicate num_quadros none
  fifo_queue := []
  uso_recente := []
  tlb_hits := 0
  page_faults := 0
  acessos := 0
  clock := 0

namespace MemoryManager

/-- `buscar_na_tlb`: linear scan of the TLB list. -/
def buscar_na_tlb (tlb : List (Nat × Nat)) (pagina : Nat) : Option Nat :=
  (tlb.find? (fun entrada => entrada.1 == pagina)).map (·.2)

/-- `atualiza_tlb`: if the TLB is at capacity, `pop(0)` the oldest entry,
then append the new one. -/
def atualiza_tlb (tlb : List (Nat × Nat)) (tlb_size : Nat) (pagina quadro : Nat) :
    List (Nat × Nat) :=
  (if tlb.length ≥ tlb_size then tlb.drop 1 else tlb) ++ [(pagina, quadro)]

/-- `remover_da_tlb`: drop every entry whose page is `pagina`. -/
def remover_da_tlb (tlb : List (Nat × Nat)) (pagina : Nat) : List (Nat × Nat) :=
  tlb.filter (fun entrada => entrada.1 ≠ pagina)

/-- `ler_memoria`: read `physical_memory[quadro][offset]` and reinterpret the
byte as signed. -/
def ler_memoria (s : MemoryManager) (quadro offset : Nat) : Except SimError Int :=
  match s.physical_memory.get? quadro with
  | some (some data) =>
      match data.get? offset with
      | some b => .ok (to_signed b)
      | none => .error .memError
  | _ => .error .memError

/-- `substituicao_fifo`.  `entrada` is the page-table record of the victim;
`entrada.1` is its `'quadro'` field (the code reads it without looking at the
`'valido'` bit). -/
def substituicao_fifo (store : Nat → Nat) (s : MemoryManager) (pagina_nova : Nat) :
    Except SimError (Nat × MemoryManager) :=
  match s.fifo_queue with
  | [] => .error .memError
  | pagina_a_substituir :: rest =>
      match dictGet s.page_table pagina_a_substituir with
      | none => .error .memError
      | some entrada =>
          .ok (entrada.1,
            { s with
              page_table := dictSet s.page_table pagina_a_substituir (entrada.1, false)
              tlb := remover_da_tlb s.tlb pagina_a_substituir
              physical_memory := s.physical_memory.set entrada.1
                (some (carrega_pagina s.page_size store pagina_nova))
              quadros := s.quadros.set entrada.1 (some pagina_nova)
              fifo_queue := rest ++ [pagina_nova] })

/-- `substituicao_lru`. -/
def substituicao_lru (store : Nat → Nat) (s : MemoryManager) (pagina_nova : Nat) :
    Except SimError (Nat × MemoryManager) :=
  match minByKey s.uso_recente with
  | none => .error .memError
  | some vict =>
      match dictGet s.page_table vict.1 with
      | none => .error .memError
      | some entrada =>
          .ok (entrada.1,
            { s with
              page_table := dictSet s.page_table vict.1 (entrada.1, false)
              tlb := remover_da_tlb s.tlb vict.1
              physical_memory := s.physical_memory.set entrada.1
                (some (carrega_pagina s.page_size store pagina_nova))
              quadros := s.quadros.set entrada.1 (some pagina_nova)
              uso_recente := dictSet (dictDel s.uso_recente vict.1) pagina_nova s.clock })

/-- `tratar_page_fault`. -/
def tratar_page_fault (store : Nat → Nat) (s : MemoryManager) (pagina : Nat) :
    Except SimError (Nat × MemoryManager) :=
  match index_none s.quadros with
  | some quadro =>
      if s.algoritmo = "FIFO" then
        .ok (quadro, { s with
          physical_memory := s.physical_memory.set quadro
            (some (carrega_pagina s.page_size store pagina))
          quadros := s.quadros.set quadro (some pagina)
          fifo_queue := s.fifo_queue ++ [pagina] })
      else if s.algoritmo = "LRU" then
        .ok (quadro, { s with
          physical_memory := s.physical_memory.set quadro
            (some (carrega_pagina s.page_size store pagina))
          quadros := s.quadros.set quadro (some pagina)
          uso_recente := dictSet s.uso_recente pagina s.clock })
      else
        .ok (quadro, { s with
          physical_memory := s.physical_memory.set quadro
            (some (carrega_pagina s.page_size store pagina))
          quadros := s.quadros.set quadro (some pagina) })
  | none =>
      if s.algoritmo = "FIFO" then substituicao_fifo store s pagina
      else if s.algoritmo = "LRU" then substituicao_lru store s pagina
      else .error .policyError

/-- The LRU timestamp refresh `self.uso_recente[pagina] = self.clock`
performed on every access when the policy is LRU. -/
def lruTouch (s : MemoryManager) (pagina : Nat) : MemoryManager :=
  if s.algoritmo = "LRU" then
    { s with uso_recente := dictSet s.uso_recente pagina s.clock }
  else s

/-- The tail of `acessar`: physical-address computation and memory read. -/
def finish (s : MemoryManager) (quadro offset : Nat) :
    Except SimError ((Nat × Int) × MemoryManager) :=
  (s.ler_memoria quadro offset).map
    (fun conteudo => (((quadro <<< s.offset_bits) ||| offset, conteudo), s))

/-- `acessar`: one full virtual-address translation. -/
def acessar (store : Nat → Nat) (s : MemoryManager) (endereco_virtual : Nat) :
    Except SimError ((Nat × Int) × MemoryManager) :=
  let s1 := { s with acessos := s.acessos + 1, clock := s.clock + 1 }
  let ev := endereco_virtual &&& 0xFFFF
  let pagina := obter_pagina s1.offset_bits ev
  let offset := obter_offset s1.offset_bits ev
  match buscar_na_tlb s1.tlb pagina with
  | some quadro =>
      let s2 := { s1 with tlb_hits := s1.tlb_hits + 1 }
      finish (lruTouch s2 pagina) quadro offset
  | none =>
      match dictGet s1.page_table pagina with
      | some (quadro, true) =>
          let s2 := { s1 with tlb := atualiza_tlb s1.tlb s1.tlb_size pagina quadro }
          finish (lruTouch s2 pagina) quadro offset
      | _ =>
          let s2 := { s1 with page_faults := s1.page_faults + 1 }
          (tratar_page_fault store s2 pagina).bind (fun res =>
            let s4 := { res.2 with
                        page_table := dictSet res.2.page_table pagina (res.1, true) }
            let s5 := { s4 with tlb := atualiza_tlb s4.tlb s4.tlb_size pagina res.1 }
            finish (lruTouch s5 pagina) res.1 offset)

end MemoryManager

/-- Run a sequence of `acessar` calls, threading the state; an abort stops
the run. -/
def runTrace (store : Nat → Nat) (s : MemoryManager) :
    List Nat → Except SimError MemoryManager
  | [] => .ok s
  | a :: rest =>
      match s.acessar store a with
      | .ok res => runTrace store res.2 rest
      | .error e => .error e

/-- A state is reachable when some constructed instance produces it by a
sequence of successful translations. -/
def Reachable (store : Nat → Nat) (s : MemoryManager) : Prop :=
  ∃ nq alg addrs, runTrace store (initState nq alg) addrs = .ok s

/-- Helper for concrete witnesses: the state after a trace (falling back to
the initial state on abort, which the witnesses never hit). -/
def runState (store : Nat → Nat) (nq : Nat) (alg : String) (addrs : List Nat) :
    MemoryManager :=
  match runTrace store (initState nq alg) addrs with
  | .ok s => s
  | .error _ => initState nq alg

/-- An all-zero backing store used by concrete witnesses. -/
def store0 : Nat → Nat := fun _ => 0

/-! ### Dictionary lemmas -/

theorem dictGet_dictSet_self {α : Type} (d : List (Nat × α)) (k : Nat) (v : α) :
    dictGet (dictSet d k v) k = some v := by
  induction d with
  | nil => simp [dictGet, dictSet]
  | cons e rest ih =>
      obtain ⟨k1, v1⟩ := e
      by_cases h : k1 = k
      · simp [dictSet, dictGet, h]
      · simpa [dictSet, dictGet, h] using ih

theorem dictGet_dictSet_ne {α : Type} (d : List (Nat × α)) {k k' : Nat} (v : α)
    (h : k' ≠ k) : dictGet (dictSet d k v) k' = dictGet d k' := by
  induction d with
  | nil =>
      simp only [dictSet, dictGet]
      rw [if_neg (fun hh => h hh.symm)]
  | cons e rest ih =>
      obtain ⟨k1, v1⟩ := e
      by_cases he : k1 = k
      · subst he
        simp only [dictSet, if_pos rfl, dictGet]
        rw [if_neg (fun hh => h hh.symm), if_neg (fun hh => h hh.symm)]
      · by_cases he' : k1 = k'
        · subst he'
          simp [dictSet, if_neg he, dictGet]
        · simpa [dictSet, dictGet, he, he'] using ih

theorem dictGet_mem {α : Type} {d : List (Nat × α)} {k : Nat} {v : α}
    (h : dictGet d k = some v) : (k, v) ∈ d := by
  induction d with
  | nil => simp [dictGet] at h
  | cons e rest ih =>
      obtain ⟨k1, v1⟩ := e
      by_cases he : k1 = k
      · simp only [dictGet, he, if_pos] at h
        cases h
        subst he
        exact List.mem_cons_self _ _
      · simp only [dictGet, he, if_neg, not_false_iff] at h
        exact List.mem_cons_of_mem _ (ih h)

theorem mem_dictGet_isSome {α : Type} {d : List (Nat × α)} {k : Nat} {v : α}
    (h : (k, v) ∈ d) : ∃ c, dictGet d k = some c := by
  induction d with
  | nil => simp at h
  | cons e rest ih =>
      obtain ⟨k1, v1⟩ := e
      by_cases he : k1 = k
      · exact ⟨v1, by simp [dictGet, he]⟩
      · rcases List.mem_cons.mp h with h | h
        · cases h; simp at he
        · simpa [dictGet, he] using ih h

theorem dictGet_dictDel_self {α : Type} (d : List (Nat × α)) (k : Nat) :
    dictGet (dictDel d k) k = none := by
  induction d with
  | nil => simp [dictGet, dictDel]
  | cons e rest ih =>
      obtain ⟨k1, v1⟩ := e
      simp only [dictDel, List.filter_cons] at ih ⊢
      by_cases he : k1 = k
      · subst he
        simpa using ih
      · simpa [he, dictGet] using ih

theorem dictGet_dictDel_ne {α : Type} (d : List (Nat × α)) {k k' : Nat}
    (h : k' ≠ k) : dictGet (dictDel d k) k' = dictGet d k' := by
  induction d with
  | nil => simp [dictDel]
  | cons e rest ih =>
      obtain ⟨k1, v1⟩ := e
      simp only [dictDel, List.filter_cons] at ih ⊢
      by_cases he : k1 = k
      · subst he
        rw [if_neg (by simp), dictGet, if_neg (fun hh => h hh.symm)]
        exact ih
      · by_cases he' : k1 = k'
        · subst he'
          rw [if_pos (by simpa using he), dictGet, if_pos rfl, dictGet, if_pos rfl]
        · rw [if_pos (by simpa using he), dictGet, if_neg he', dictGet, if_neg he']
          exact ih

/-! ### `minByKey` lemmas -/

theorem minByKey_eq_none {d : List (Nat × Nat)} :
    minByKey d = none ↔ d = [] := by
  cases d with
  | nil => simp [minByKey]
  | cons e rest =>
      cases hm : minByKey rest with
      | none => simp [minByKey, hm]
      | some b =>
          simp only [minByKey, hm]
          by_cases hlt : b.2 < e.2 <;> simp [hlt]

theorem minByKey_mem {d : List (Nat × Nat)} {e : Nat × Nat}
    (h : minByKey d = some e) : e ∈ d := by
  induction d with
  | nil => simp [minByKey] at h
  | cons x rest ih =>
      cases hm : minByKey rest with
      | none =>
          simp only [minByKey, hm] at h
          cases h
          exact List.mem_cons_self _ _
      | some b =>
          simp only [minByKey, hm] at h
          by_cases hlt : b.2 < x.2
          · rw [if_pos hlt] at h
            cases h
            exact List.mem_cons_of_mem _ (ih hm)
          · rw [if_neg hlt] at h
            cases h
            exact List.mem_cons_self _ _

theorem minByKey_le {d : List (Nat × Nat)} :
    ∀ {e : Nat × Nat}, minByKey d = some e → ∀ e' ∈ d, e.2 ≤ e'.2 := by
  induction d with
  | nil => intro e h; simp [minByKey] at h
  | cons x rest ih =>
      intro e h e' he'
      cases hm : minByKey rest with
      | none =>
          simp only [minByKey, hm] at h
          cases h
          have : rest = [] := minByKey_eq_none.mp hm
          subst this
          rcases List.mem_cons.mp he' with h | h
          · rw [h]
          · simp at h
      | some b =>
          simp only [minByKey, hm] at h
          rcases List.mem_cons.mp he' with rfl | hmem
          · by_cases hlt : b.2 < e'.2
            · rw [if_pos hlt] at h
              have hbe := Option.some.inj h
              subst hbe
              omega
            · rw [if_neg hlt] at h
              have hbe := Option.some.inj h
              subst hbe
              omega
          · by_cases hlt : b.2 < x.2
            · rw [if_pos hlt] at h
              have hbe := Option.some.inj h
              subst hbe
              exact ih hm e' hmem
            · rw [if_neg hlt] at h
              have hbe := Option.some.inj h
              subst hbe
              have := ih hm e' hmem
              omega

theorem minByKey_split {d : List (Nat × Nat)} {e : Nat × Nat}
    (h : minByKey d = some e) :
    ∃ d1 d2, d = d1 ++ e :: d2 ∧ ∀ e' ∈ d1, e.2 < e'.2 := by
  induction d with
  | nil => simp [minByKey] at h
  | cons x rest ih =>
      cases hm : minByKey rest with
      | none =>
          simp only [minByKey, hm] at h
          cases h
          exact ⟨[], rest, rfl, by simp⟩
      | some b =>
          simp only [minByKey, hm] at h
          by_cases hlt : b.2 < x.2
          · rw [if_pos hlt] at h
            cases h
            rcases ih hm with ⟨d1, d2, hd, hgt⟩
            refine ⟨x :: d1, d2, by rw [hd]; rfl, ?_⟩
            intro e' he'
            rcases List.mem_cons.mp he' with rfl | hmem
            · exact hlt
            · exact hgt e' hmem
          · rw [if_neg hlt] at h
            cases h
            exact ⟨[], rest, rfl, by simp⟩

/-! ### `index_none` lemmas -/

theorem index_none_get {l : List (Option Nat)} {i : Nat}
    (h : index_none l = some i) : l.get? i = some none := by
  induction l generalizing i with
  | nil => simp [index_none] at h
  | cons x rest ih =>
      cases x with
      | none =>
          simp only [index_none] at h
          cases h
          rfl
      | some p =>
          simp only [index_none, Option.map_eq_some'] at h
          rcases h with ⟨j, hj, hij⟩
          subst hij
          simpa using ih hj

/-! ### TLB operation lemmas -/

namespace MemoryManager

theorem buscar_na_tlb_eq_none {tlb : List (Nat × Nat)} {p : Nat}
    (h : buscar_na_tlb tlb p = none) : ∀ e ∈ tlb, e.1 ≠ p := by
  intro e he
  simp only [buscar_na_tlb, Option.map_eq_none', List.find?_eq_none] at h
  simpa using h e he

theorem buscar_na_tlb_mem {tlb : List (Nat × Nat)} {p q : Nat}
    (h : buscar_na_tlb tlb p = some q) : (p, q) ∈ tlb := by
  simp only [buscar_na_tlb, Option.map_eq_some'] at h
  rcases h with ⟨e, he, hq⟩
  have hmem := List.mem_of_find?_eq_some he
  have hp := List.find?_some he
  obtain ⟨e1, e2⟩ := e
  simp only [beq_iff_eq] at hp
  subst hp
  subst hq
  exact hmem

theorem mem_atualiza_tlb {tlb : List (Nat × Nat)} {sz p q : Nat} {e : Nat × Nat}
    (h : e ∈ atualiza_tlb tlb sz p q) : e ∈ tlb ∨ e = (p, q) := by
  simp only [atualiza_tlb] at h
  rcases List.mem_append.mp h with h | h
  · left
    split at h
    · exact List.mem_of_mem_drop h
    · exact h
  · right
    simpa using h

theorem length_atualiza_tlb {tlb : List (Nat × Nat)} {p q : Nat}
    (h : tlb.length ≤ 16) : (atualiza_tlb tlb 16 p q).length ≤ 16 := by
  simp only [atualiza_tlb, List.length_append, List.length_singleton]
  split
  · next hge =>
      have h16 : tlb.length = 16 := le_antisymm h hge
      simp [List.length_drop, h16]
  · next hlt =>
      omega

theorem mem_remover_da_tlb {tlb : List (Nat × Nat)} {v : Nat} {e : Nat × Nat}
    (h : e ∈ remover_da_tlb tlb v) : e ∈ tlb ∧ e.1 ≠ v := by
  simp only [remover_da_tlb] at h
  have := List.of_mem_filter h
  refine ⟨List.mem_of_mem_filter h, by simpa using this⟩

theorem buscar_atualiza_tlb_self {tlb : List (Nat × Nat)} {sz p q : Nat}
    (h : buscar_na_tlb tlb p = none) :
    buscar_na_tlb (atualiza_tlb tlb sz p q) p = some q := by
  simp only [buscar_na_tlb, Option.map_eq_none', List.find?_eq_none] at h
  have hall : ∀ e ∈ (if tlb.length ≥ sz then tlb.drop 1 else tlb),
      ¬(e.1 == p) = true := by
    intro e he
    split at he
    · exact h e (List.mem_of_mem_drop he)
    · exact h e he
  simp only [atualiza_tlb, buscar_na_tlb, List.find?_append,
    List.find?_eq_none.mpr hall, Option.none_or]
  simp [List.find?]

theorem buscar_remover_da_tlb_none {tlb : List (Nat × Nat)} {p v : Nat}
    (h : buscar_na_tlb tlb p = none) :
    buscar_na_tlb (remover_da_tlb tlb v) p = none := by
  simp only [buscar_na_tlb, Option.map_eq_none', List.find?_eq_none] at h ⊢
  intro e he
  exact h e (mem_remover_da_tlb he).1

/-! ### Projection lemmas for the small state transformers -/

theorem lruTouch_page_table (s : MemoryManager) (p : Nat) :
    (lruTouch s p).page_table = s.page_table := by
  unfold lruTouch; split <;> rfl

theorem lruTouch_tlb (s : MemoryManager) (p : Nat) :
    (lruTouch s p).tlb = s.tlb := by
  unfold lruTouch; split <;> rfl

theorem lruTouch_quadros (s : MemoryManager) (p : Nat) :
    (lruTouch s p).quadros = s.quadros := by
  unfold lruTouch; split <;> rfl

theorem lruTouch_physical_memory (s : MemoryManager) (p : Nat) :
    (lruTouch s p).physical_memory = s.physical_memory := by
  unfold lruTouch; split <;> rfl

theorem lruTouch_fifo_queue (s : MemoryManager) (p : Nat) :
    (lruTouch s p).fifo_queue = s.fifo_queue := by
  unfold lruTouch; split <;> rfl

theorem lruTouch_algoritmo (s : MemoryManager) (p : Nat) :
    (lruTouch s p).algoritmo = s.algoritmo := by
  unfold lruTouch; split <;> rfl

theorem lruTouch_num_quadros (s : MemoryManager) (p : Nat) :
    (lruTouch s p).num_quadros = s.num_quadros := by
  unfold lruTouch; split <;> rfl

theorem lruTouch_page_size (s : MemoryManager) (p : Nat) :
    (lruTouch s p).page_size = s.page_size := by
  unfold lruTouch; split <;> rfl

theorem lruTouch_offset_bits (s : MemoryManager) (p : Nat) :
    (lruTouch s p).offset_bits = s.offset_bits := by
  unfold lruTouch; split <;> rfl

theorem lruTouch_tlb_size (s : MemoryManager) (p : Nat) :
    (lruTouch s p).tlb_size = s.tlb_size := by
  unfold lruTouch; split <;> rfl

theorem lruTouch_page_faults (s : MemoryManager) (p : Nat) :
    (lruTouch s p).page_faults = s.page_faults := by
  unfold lruTouch; split <;> rfl

theorem lruTouch_uso_recente (s : MemoryManager) (p : Nat) :
    (lruTouch s p).uso_recente =
      if s.algoritmo = "LRU" then dictSet s.uso_recente p s.clock
      else s.uso_recente := by
  unfold lruTouch; split <;> simp_all

theorem ler_memoria_congr {s₁ s₂ : MemoryManager} (q o : Nat)
    (h : s₁.physical_memory = s₂.physical_memory) :
    s₁.ler_memoria q o = s₂.ler_memoria q o := by
  unfold ler_memoria
  rw [h]

theorem finish_ok {s : MemoryManager} {q o : Nat} {pa : Nat} {v : Int}
    {s' : MemoryManager} (h : finish s q o = .ok ((pa, v), s')) :
    s' = s ∧ pa = (q <<< s.offset_bits) ||| o ∧ s.ler_memoria q o = .ok v := by
  unfold finish at h
  cases hm : s.ler_memoria q o with
  | ok w =>
      rw [hm] at h
      simp only [Except.map] at h
      cases h
      exact ⟨rfl, rfl, rfl⟩
  | error e =>
      rw [hm] at h
      simp [Except.map] at h

end MemoryManager

/-! ### Characterization of `tratar_page_fault` -/

namespace MemoryManager

/-- Everything a successful `tratar_page_fault` does to the state, relative
to the input state: the chosen frame `q` ends up holding `p`'s page both in
`quadros` and in `physical_memory`, and either a free frame was used (page
table and TLB untouched) or the FIFO/LRU victim was invalidated and flushed
from the TLB. -/
theorem tratar_page_fault_ok {store : Nat → Nat} {s : MemoryManager}
    {p q : Nat} {s3 : MemoryManager}
    (h : tratar_page_fault store s p = .ok (q, s3)) :
    s3.num_quadros = s.num_quadros ∧ s3.algoritmo = s.algoritmo ∧
    s3.page_size = s.page_size ∧ s3.offset_bits = s.offset_bits ∧
    s3.tlb_size = s.tlb_size ∧ s3.clock = s.clock ∧
    s3.page_faults = s.page_faults ∧
    s3.quadros = s.quadros.set q (some p) ∧
    s3.physical_memory =
      s.physical_memory.set q (some (carrega_pagina s.page_size store p)) ∧
    ((index_none s.quadros = some q ∧ s3.page_table = s.page_table ∧
      s3.tlb = s.tlb ∧
      (s.algoritmo = "FIFO" →
        s3.fifo_queue = s.fifo_queue ++ [p] ∧ s3.uso_recente = s.uso_recente) ∧
      (s.algoritmo = "LRU" →
        s3.uso_recente = dictSet s.uso_recente p s.clock ∧
        s3.fifo_queue = s.fifo_queue) ∧
      (s.algoritmo ≠ "FIFO" → s.algoritmo ≠ "LRU" →
        s3.fifo_queue = s.fifo_queue ∧ s3.uso_recente = s.uso_recente)) ∨
     (∃ v b, index_none s.quadros = none ∧
      dictGet s.page_table v = some (q, b) ∧
      s3.page_table = dictSet s.page_table v (q, false) ∧
      s3.tlb = remover_da_tlb s.tlb v ∧
      ((s.algoritmo = "FIFO" ∧ (∃ rest, s.fifo_queue = v :: rest ∧
          s3.fifo_queue = rest ++ [p]) ∧ s3.uso_recente = s.uso_recente) ∨
       (s.algoritmo = "LRU" ∧ (∃ tv, minByKey s.uso_recente = some (v, tv)) ∧
          s3.uso_recente = dictSet (dictDel s.uso_recente v) p s.clock ∧
          s3.fifo_queue = s.fifo_queue)))) := by
  unfold tratar_page_fault at h
  split at h
  · -- a free frame exists
    next quadro hidx =>
      split at h
      · -- FIFO bookkeeping
        next hf =>
          injection h with h
          injection h with h1 h2
          subst h1
          subst h2
          have hf' : s.algoritmo = "FIFO" := hf
          refine ⟨rfl, rfl, rfl, rfl, rfl, rfl, rfl, rfl, rfl, Or.inl ?_⟩
          refine ⟨hidx, rfl, rfl, fun _ => ⟨rfl, rfl⟩, ?_, ?_⟩
          · intro hl
            rw [hf'] at hl
            exact absurd hl (by decide)
          · intro hnf _
            exact absurd hf' hnf
      · split at h
        · -- LRU bookkeeping
          next hnf hl =>
            injection h with h
            injection h with h1 h2
            subst h1
            subst h2
            have hl' : s.algoritmo = "LRU" := hl
            have hnf' : ¬s.algoritmo = "FIFO" := hnf
            refine ⟨rfl, rfl, rfl, rfl, rfl, rfl, rfl, rfl, rfl, Or.inl ?_⟩
            exact ⟨hidx, rfl, rfl, fun hf' => absurd hf' hnf', fun _ => ⟨rfl, rfl⟩,
              fun _ hnl => absurd hl' hnl⟩
        · -- no bookkeeping for unknown policy
          next hnf hnl =>
            injection h with h
            injection h with h1 h2
            subst h1
            subst h2
            have hnf' : ¬s.algoritmo = "FIFO" := hnf
            have hnl' : ¬s.algoritmo = "LRU" := hnl
            refine ⟨rfl, rfl, rfl, rfl, rfl, rfl, rfl, rfl, rfl, Or.inl ?_⟩
            exact ⟨hidx, rfl, rfl, fun hf' => absurd hf' hnf',
              fun hl' => absurd hl' hnl', fun _ _ => ⟨rfl, rfl⟩⟩
  · -- no free frame: replacement
    next hidx =>
      split at h
      · -- FIFO replacement
        next hf =>
          unfold substituicao_fifo at h
          split at h
          · exact absurd h (by simp)
          · next vict rest hq =>
              split at h
              · exact absurd h (by simp)
              · next fr hpt =>
                  obtain ⟨fq, fb⟩ := fr
                  injection h with h
                  injection h with h1 h2
                  subst h1
                  subst h2
                  refine ⟨rfl, rfl, rfl, rfl, rfl, rfl, rfl, rfl, rfl, Or.inr ?_⟩
                  exact ⟨vict, fb, hidx, hpt, rfl, rfl,
                    Or.inl ⟨hf, ⟨rest, hq, rfl⟩, rfl⟩⟩
      · split at h
        · -- LRU replacement
          next hnf hl =>
            unfold substituicao_lru at h
            split at h
            · exact absurd h (by simp)
            · next vict hmk =>
                split at h
                · exact absurd h (by simp)
                · next fr hpt =>
                    obtain ⟨fq, fb⟩ := fr
                    injection h with h
                    injection h with h1 h2
                    subst h1
                    subst h2
                    refine ⟨rfl, rfl, rfl, rfl, rfl, rfl, rfl, rfl, rfl, Or.inr ?_⟩
                    exact ⟨vict.1, fb, hidx, hpt, rfl, rfl,
                      Or.inr ⟨hl, ⟨vict.2, by rw [hmk]⟩, rfl, rfl⟩⟩
        · exact absurd h (by simp)

end MemoryManager

/-! ### The inductive invariant -/

/-- All consistency facts that hold in every reachable `MemoryManager`
state: the geometry constants, the TLB bound, TLB ⊆ valid page-table
mappings, mutual consistency of the page table and the frame vector, frame
contents matching the backing store, and the replacement bookkeeping
describing exactly the resident pages. -/
structure SimInv (store : Nat → Nat) (s : MemoryManager) : Prop where
  page_size_eq : s.page_size = 256
  offset_bits_eq : s.offset_bits = 8
  tlb_size_eq : s.tlb_size = 16
  quadros_len : s.quadros.length = s.num_quadros
  mem_len : s.physical_memory.length = s.num_quadros
  tlb_len : s.tlb.length ≤ 16
  tlb_pt : ∀ e ∈ s.tlb, dictGet s.page_table e.1 = some (e.2, true)
  valid_frame : ∀ p f, dictGet s.page_table p = some (f, true) →
    s.quadros.get? f = some (some p)
  frame_valid : ∀ f p, s.quadros.get? f = some (some p) →
    dictGet s.page_table p = some (f, true)
  frame_mem : ∀ f p, s.quadros.get? f = some (some p) →
    s.physical_memory.get? f = some (some (carrega_pagina 256 store p))
  fifo_ok : s.algoritmo = "FIFO" → s.fifo_queue.Nodup ∧
    ∀ p, p ∈ s.fifo_queue ↔ ∃ f, dictGet s.page_table p = some (f, true)
  lru_ok : s.algoritmo = "LRU" → ∀ p,
    (∃ c, dictGet s.uso_recente p = some c) ↔
    (∃ f, dictGet s.page_table p = some (f, true))

theorem replicate_none_get {n i : Nat} {x : Option Nat}
    (h : (List.replicate n (none : Option Nat)).get? i = some x) : x = none := by
  have hmem : x ∈ List.replicate n (none : Option Nat) := List.get?_mem h
  exact List.eq_of_mem_replicate hmem

theorem inv_initState (store : Nat → Nat) (nq : Nat) (alg : String) :
    SimInv store (initState nq alg) := by
  constructor
  · rfl
  · rfl
  · rfl
  · simp [initState]
  · simp [initState]
  · simp [initState]
  · intro e he; simp [initState] at he
  · intro p f hp; simp [initState, dictGet] at hp
  · intro f p hf
    have := replicate_none_get hf
    simp at this
  · intro f p hf
    have := replicate_none_get hf
    simp at this
  · intro _
    constructor
    · simp [initState]
    · intro p
      simp [initState, dictGet]
  · intro _ p
    simp [initState, dictGet]

theorem SimInv.resident_of_tlb {store : Nat → Nat} {s : MemoryManager}
    (inv : SimInv store s) {p q : Nat}
    (h : MemoryManager.buscar_na_tlb s.tlb p = some q) :
    dictGet s.page_table p = some (q, true) :=
  inv.tlb_pt (p, q) (MemoryManager.buscar_na_tlb_mem h)

namespace MemoryManager

theorem inv_lruTouch {store : Nat → Nat} {s : MemoryManager} {p : Nat}
    (inv : SimInv store s) (hres : ∃ f, dictGet s.page_table p = some (f, true)) :
    SimInv store (lruTouch s p) := by
  unfold lruTouch
  split
  · next hl =>
      constructor <;>
        simp only [lruTouch, inv.page_size_eq, inv.offset_bits_eq, inv.tlb_size_eq]
      · exact inv.quadros_len
      · exact inv.mem_len
      · exact inv.tlb_len
      · exact inv.tlb_pt
      · exact inv.valid_frame
      · exact inv.frame_valid
      · exact inv.frame_mem
      · exact inv.fifo_ok
      · intro _ p'
        by_cases hp : p' = p
        · subst hp
          rw [dictGet_dictSet_self]
          exact ⟨fun _ => hres, fun _ => ⟨s.clock, rfl⟩⟩
        · rw [dictGet_dictSet_ne _ _ hp]
          exact inv.lru_ok hl p'
  · exact inv

end MemoryManager

theorem dictSet_dictSet_self {α : Type} (d : List (Nat × α)) (k : Nat) (v w : α) :
    dictSet (dictSet d k v) k w = dictSet d k w := by
  induction d with
  | nil => simp [dictSet]
  | cons e rest ih =>
      obtain ⟨k1, v1⟩ := e
      by_cases h : k1 = k
      · subst h
        simp [dictSet]
      · simp [dictSet, h, ih]

namespace MemoryManager

/-- Preservation of the invariant across the fault path of `acessar`: `t` is
the state just before the final LRU touch, described by its components. -/
theorem siminv_fault {store : Nat → Nat} {s t : MemoryManager} (inv : SimInv store s)
    {p q : Nat}
    (hnotres : ∀ f, dictGet s.page_table p ≠ some (f, true))
    (hnotlb : buscar_na_tlb s.tlb p = none)
    (halg : t.algoritmo = s.algoritmo)
    (hnq : t.num_quadros = s.num_quadros)
    (hps : t.page_size = s.page_size)
    (hob : t.offset_bits = s.offset_bits)
    (hts : t.tlb_size = s.tlb_size)
    (hqd : t.quadros = s.quadros.set q (some p))
    (hpm : t.physical_memory =
      s.physical_memory.set q (some (carrega_pagina s.page_size store p)))
    (hcase :
      (s.quadros.get? q = some none ∧
       t.page_table = dictSet s.page_table p (q, true) ∧
       t.tlb = atualiza_tlb s.tlb s.tlb_size p q ∧
       (s.algoritmo = "FIFO" →
         t.fifo_queue = s.fifo_queue ++ [p] ∧ t.uso_recente = s.uso_recente) ∧
       (s.algoritmo = "LRU" → ∃ c, t.uso_recente = dictSet s.uso_recente p c)) ∨
      (∃ v b, v ≠ p ∧ dictGet s.page_table v = some (q, b) ∧ b = true ∧
       t.page_table = dictSet (dictSet s.page_table v (q, false)) p (q, true) ∧
       t.tlb = atualiza_tlb (remover_da_tlb s.tlb v) s.tlb_size p q ∧
       ((s.algoritmo = "FIFO" ∧ (∃ rest, s.fifo_queue = v :: rest ∧
           t.fifo_queue = rest ++ [p]) ∧ t.uso_recente = s.uso_recente) ∨
        (s.algoritmo = "LRU" ∧
           (∃ c, t.uso_recente = dictSet (dictDel s.uso_recente v) p c) ∧
           t.fifo_queue = s.fifo_queue)))) :
    SimInv store t := by
  have htlb16 := inv.tlb_size_eq
  rcases hcase with
    ⟨hfree, hpt, htlb, hfifo, hlru⟩ |
    ⟨v, b, hvp, hptv, hb, hpt, htlb, hpol⟩
  · -- a previously free frame `q` was used
    have hqlt : q < s.quadros.length := by
      rcases List.get?_eq_some.mp hfree with ⟨hlt, _⟩
      exact hlt
    constructor
    · rw [hps, inv.page_size_eq]
    · rw [hob, inv.offset_bits_eq]
    · rw [hts, htlb16]
    · rw [hqd, List.length_set, inv.quadros_len, hnq]
    · rw [hpm, List.length_set, inv.mem_len, hnq]
    · rw [htlb, htlb16]
      exact length_atualiza_tlb inv.tlb_len
    · -- TLB entries name valid mappings
      intro e he
      rw [htlb] at he
      rcases mem_atualiza_tlb he with he | he
      · have h1 := inv.tlb_pt e he
        have h2 : e.1 ≠ p := buscar_na_tlb_eq_none hnotlb e he
        rw [hpt, dictGet_dictSet_ne _ _ h2]
        exact h1
      · subst he
        rw [hpt, dictGet_dictSet_self]
    · -- valid mappings point into the frame vector
      intro p' f hp'
      rw [hpt] at hp'
      rw [hqd]
      by_cases hpp : p' = p
      · subst hpp
        rw [dictGet_dictSet_self] at hp'
        simp only [Option.some.injEq, Prod.mk.injEq] at hp'
        obtain ⟨rfl, -⟩ := hp'
        rw [List.get?_set_eq_of_lt _ hqlt]
      · rw [dictGet_dictSet_ne _ _ hpp] at hp'
        have h1 := inv.valid_frame p' f hp'
        have hfq : f ≠ q := by
          intro hfq
          subst hfq
          rw [hfree] at h1
          cases h1
        rw [List.get?_set_ne _ _ (fun hh => hfq hh.symm)]
        exact h1
    · -- occupied frames have valid mappings
      intro f p' hf
      rw [hqd] at hf
      rw [hpt]
      by_cases hfq : f = q
      · subst hfq
        rw [List.get?_set_eq_of_lt _ hqlt] at hf
        obtain rfl : p = p' := by
          cases hf
          rfl
        rw [dictGet_dictSet_self]
      · rw [List.get?_set_ne _ _ (fun hh => hfq hh.symm)] at hf
        have h1 := inv.frame_valid f p' hf
        have hpp : p' ≠ p := by
          intro hpp
          subst hpp
          exact hnotres f h1
        rw [dictGet_dictSet_ne _ _ hpp]
        exact h1
    · -- frame contents match the backing store
      intro f p' hf
      rw [hqd] at hf
      rw [hpm, hps] at *
      by_cases hfq : f = q
      · subst hfq
        rw [List.get?_set_eq_of_lt _ hqlt] at hf
        obtain rfl : p = p' := by
          cases hf
          rfl
        have hqlt' : f < s.physical_memory.length := by
          rw [inv.mem_len, ← inv.quadros_len]
          exact hqlt
        rw [List.get?_set_eq_of_lt _ hqlt', inv.page_size_eq]
      · rw [List.get?_set_ne _ _ (fun hh => hfq hh.symm)] at hf
        rw [List.get?_set_ne _ _ (fun hh => hfq hh.symm)]
        exact inv.frame_mem f p' hf
    · -- FIFO bookkeeping
      intro halgf
      rw [halg] at halgf
      obtain ⟨hnodup, hiff⟩ := inv.fifo_ok halgf
      obtain ⟨hfq, -⟩ := hfifo halgf
      have hpnot : p ∉ s.fifo_queue := by
        intro hmem
        rcases (hiff p).mp hmem with ⟨f, hf⟩
        exact hnotres f hf
      constructor
      · rw [hfq]
        rw [List.nodup_append]
        exact ⟨hnodup, List.nodup_singleton p, by
          intro x hx hx'
          simp only [List.mem_singleton] at hx'
          subst hx'
          exact hpnot hx⟩
      · intro p'
        rw [hfq, hpt]
        by_cases hpp : p' = p
        · subst hpp
          rw [dictGet_dictSet_self]
          simp
        · rw [dictGet_dictSet_ne _ _ hpp]
          simp only [List.mem_append, List.mem_singleton, hpp, or_false]
          exact hiff p'
    · -- LRU bookkeeping
      intro halgl p'
      rw [halg] at halgl
      obtain ⟨c, hus⟩ := hlru halgl
      rw [hus, hpt]
      by_cases hpp : p' = p
      · subst hpp
        rw [dictGet_dictSet_self, dictGet_dictSet_self]
        exact ⟨fun _ => ⟨q, rfl⟩, fun _ => ⟨c, rfl⟩⟩
      · rw [dictGet_dictSet_ne _ _ hpp, dictGet_dictSet_ne _ _ hpp]
        exact inv.lru_ok halgl p'
  · -- an occupied frame `q` was vacated by evicting `v`
    subst hb
    have hvq : s.quadros.get? q = some (some v) := inv.valid_frame v q hptv
    have hqlt : q < s.quadros.length := by
      rcases List.get?_eq_some.mp hvq with ⟨hlt, _⟩
      exact hlt
    constructor
    · rw [hps, inv.page_size_eq]
    · rw [hob, inv.offset_bits_eq]
    · rw [hts, htlb16]
    · rw [hqd, List.length_set, inv.quadros_len, hnq]
    · rw [hpm, List.length_set, inv.mem_len, hnq]
    · rw [htlb, htlb16]
      refine length_atualiza_tlb ?_
      exact le_trans (List.length_filter_le _ _) inv.tlb_len
    · -- TLB entries name valid mappings
      intro e he
      rw [htlb] at he
      rcases mem_atualiza_tlb he with he | he
      · obtain ⟨hes, hev⟩ := mem_remover_da_tlb he
        have h1 := inv.tlb_pt e hes
        have h2 : e.1 ≠ p := buscar_na_tlb_eq_none hnotlb e hes
        rw [hpt, dictGet_dictSet_ne _ _ h2, dictGet_dictSet_ne _ _ hev]
        exact h1
      · subst he
        rw [hpt, dictGet_dictSet_self]
    · -- valid mappings point into the frame vector
      intro p' f hp'
      rw [hpt] at hp'
      rw [hqd]
      by_cases hpp : p' = p
      · subst hpp
        rw [dictGet_dictSet_self] at hp'
        simp only [Option.some.injEq, Prod.mk.injEq] at hp'
        obtain ⟨rfl, -⟩ := hp'
        rw [List.get?_set_eq_of_lt _ hqlt]
      · rw [dictGet_dictSet_ne _ _ hpp] at hp'
        by_cases hpv : p' = v
        · subst hpv
          rw [dictGet_dictSet_self] at hp'
          cases hp'
        · rw [dictGet_dictSet_ne _ _ hpv] at hp'
          have h1 := inv.valid_frame p' f hp'
          have hfq : f ≠ q := by
            intro hfq
            subst hfq
            rw [hvq] at h1
            have : p' = v := by
              cases h1
              rfl
            exact hpv this
          rw [List.get?_set_ne _ _ (fun hh => hfq hh.symm)]
          exact h1
    · -- occupied frames have valid mappings
      intro f p' hf
      rw [hqd] at hf
      rw [hpt]
      by_cases hfq : f = q
      · subst hfq
        rw [List.get?_set_eq_of_lt _ hqlt] at hf
        obtain rfl : p = p' := by
          cases hf
          rfl
        rw [dictGet_dictSet_self]
      · rw [List.get?_set_ne _ _ (fun hh => hfq hh.symm)] at hf
        have h1 := inv.frame_valid f p' hf
        have hpp : p' ≠ p := by
          intro hpp
          subst hpp
          exact hnotres f h1
        have hpv : p' ≠ v := by
          intro hpv
          subst hpv
          rw [hptv] at h1
          have : q = f := by
            cases h1
            rfl
          exact hfq this.symm
        rw [dictGet_dictSet_ne _ _ hpp, dictGet_dictSet_ne _ _ hpv]
        exact h1
    · -- frame contents match the backing store
      intro f p' hf
      rw [hqd] at hf
      rw [hpm]
      by_cases hfq : f = q
      · subst hfq
        rw [List.get?_set_eq_of_lt _ hqlt] at hf
        obtain rfl : p = p' := by
          cases hf
          rfl
        have hqlt' : f < s.physical_memory.length := by
          rw [inv.mem_len, ← inv.quadros_len]
          exact hqlt
        rw [List.get?_set_eq_of_lt _ hqlt', inv.page_size_eq]
      · rw [List.get?_set_ne _ _ (fun hh => hfq hh.symm)] at hf
        rw [List.get?_set_ne _ _ (fun hh => hfq hh.symm)]
        exact inv.frame_mem f p' hf
    · -- FIFO bookkeeping
      intro halgf
      rw [halg] at halgf
      rcases hpol with ⟨-, ⟨rest, hqv, hfq⟩, -⟩ | ⟨halgl, -, -⟩
      · obtain ⟨hnodup, hiff⟩ := inv.fifo_ok halgf
        rw [hqv] at hnodup
        have hvrest : v ∉ rest := (List.nodup_cons.mp hnodup).1
        have hnodup' : rest.Nodup := (List.nodup_cons.mp hnodup).2
        have hpnot : p ∉ s.fifo_queue := by
          intro hmem
          rcases (hiff p).mp hmem with ⟨f, hf⟩
          exact hnotres f hf
        have hprest : p ∉ rest := by
          intro hmem
          exact hpnot (by rw [hqv]; exact List.mem_cons_of_mem _ hmem)
        constructor
        · rw [hfq, List.nodup_append]
          exact ⟨hnodup', List.nodup_singleton p, by
            intro x hx hx'
            simp only [List.mem_singleton] at hx'
            subst hx'
            exact hprest hx⟩
        · intro p'
          rw [hfq, hpt]
          by_cases hpp : p' = p
          · subst hpp
            rw [dictGet_dictSet_self]
            simp
          · rw [dictGet_dictSet_ne _ _ hpp]
            simp only [List.mem_append, List.mem_singleton, hpp, or_false]
            by_cases hpv : p' = v
            · subst hpv
              rw [dictGet_dictSet_self]
              constructor
              · intro hmem
                exact absurd hmem hvrest
              · intro ⟨f, hf⟩
                cases hf
            · rw [dictGet_dictSet_ne _ _ hpv]
              rw [← hiff p', hqv]
              simp [hpv]
      · rw [halgf] at halgl
        exact absurd halgl (by decide)
    · -- LRU bookkeeping
      intro halgl p'
      rw [halg] at halgl
      rcases hpol with ⟨halgf, -, -⟩ | ⟨-, ⟨c, hus⟩, -⟩
      · rw [halgl] at halgf
        exact absurd halgf (by decide)
      · rw [hus, hpt]
        by_cases hpp : p' = p
        · subst hpp
          rw [dictGet_dictSet_self, dictGet_dictSet_self]
          exact ⟨fun _ => ⟨q, rfl⟩, fun _ => ⟨c, rfl⟩⟩
        · rw [dictGet_dictSet_ne _ _ hpp, dictGet_dictSet_ne _ _ hpp]
          by_cases hpv : p' = v
          · subst hpv
            rw [dictGet_dictDel_self, dictGet_dictSet_self]
            constructor
            · intro ⟨c', hc'⟩
              cases hc'
            · intro ⟨f, hf⟩
              cases hf
          · rw [dictGet_dictDel_ne _ hpv, dictGet_dictSet_ne _ _ hpv]
            exact inv.lru_ok halgl p'

end MemoryManager

namespace MemoryManager

theorem siminv_counters {store : Nat → Nat} {s : MemoryManager} (inv : SimInv store s)
    (ac cl th pf : Nat) :
    SimInv store
      { s with acessos := ac, clock := cl, tlb_hits := th, page_faults := pf } :=
  ⟨inv.page_size_eq, inv.offset_bits_eq, inv.tlb_size_eq, inv.quadros_len, inv.mem_len,
   inv.tlb_len, inv.tlb_pt, inv.valid_frame, inv.frame_valid, inv.frame_mem,
   inv.fifo_ok, inv.lru_ok⟩

theorem siminv_tlb_insert {store : Nat → Nat} {s : MemoryManager} (inv : SimInv store s)
    {p q : Nat} (hval : dictGet s.page_table p = some (q, true)) (ac cl th : Nat) :
    SimInv store
      { s with acessos := ac, clock := cl, tlb_hits := th,
               tlb := atualiza_tlb s.tlb s.tlb_size p q } := by
  refine ⟨inv.page_size_eq, inv.offset_bits_eq, inv.tlb_size_eq, inv.quadros_len,
    inv.mem_len, ?_, ?_, inv.valid_frame, inv.frame_valid, inv.frame_mem,
    inv.fifo_ok, inv.lru_ok⟩
  · show (atualiza_tlb s.tlb s.tlb_size p q).length ≤ 16
    rw [inv.tlb_size_eq]
    exact length_atualiza_tlb inv.tlb_len
  · intro e he
    rcases mem_atualiza_tlb he with he | he
    · exact inv.tlb_pt e he
    · subst he
      exact hval

/-- `acessar` preserves the invariant. -/
theorem inv_acessar {store : Nat → Nat} {s : MemoryManager} {a : Nat}
    {out : Nat × Int} {s' : MemoryManager} (inv : SimInv store s)
    (h : acessar store s a = .ok (out, s')) : SimInv store s' := by
  obtain ⟨pa, v⟩ := out
  simp only [acessar] at h
  split at h
  · -- TLB hit
    next quadro hb =>
      obtain ⟨hs', -, -⟩ := finish_ok h
      subst hs'
      exact inv_lruTouch (siminv_counters inv _ _ _ _)
        ⟨quadro, inv.resident_of_tlb hb⟩
  · -- TLB miss
    next hbmiss =>
    split at h
    · -- page-table hit
      next quadro hpt =>
        obtain ⟨hs', -, -⟩ := finish_ok h
        subst hs'
        exact inv_lruTouch (siminv_tlb_insert inv hpt _ _ _)
          ⟨quadro, hpt⟩
    · -- page fault
      next hnres =>
        cases htr : tratar_page_fault store
            { s with acessos := s.acessos + 1, clock := s.clock + 1,
                     page_faults := s.page_faults + 1 }
            (obter_pagina s.offset_bits (a &&& 65535)) with
        | error e =>
            rw [htr] at h
            simp [Except.bind] at h
        | ok res =>
            obtain ⟨q, s3⟩ := res
            rw [htr] at h
            simp only [Except.bind] at h
            obtain ⟨hs', -, -⟩ := finish_ok h
            subst hs'
            have hnotres : ∀ f,
                dictGet s.page_table (obter_pagina s.offset_bits (a &&& 65535)) ≠
                  some (f, true) := fun f hf => hnres f hf
            obtain ⟨hnq3, halg3, hps3, hob3, hts3, hclk3, hpf3, hqd3, hpm3, hdisj⟩ :=
              tratar_page_fault_ok htr
            refine inv_lruTouch
              (siminv_fault inv hnotres hbmiss halg3 hnq3 hps3 hob3 hts3 hqd3 hpm3 ?_)
              ⟨q, dictGet_dictSet_self _ _ _⟩
            rcases hdisj with ⟨hidx, hpt3, htlb3, hfifoA, hlruA, -⟩ |
              ⟨v, b, hidx, hptv, hpt3, htlb3, hpolicy⟩
            · -- free frame
              refine Or.inl ⟨index_none_get hidx,
                congrArg (fun d => dictSet d (obter_pagina s.offset_bits (a &&& 65535))
                  (q, true)) hpt3, ?_, ?_, ?_⟩
              · show atualiza_tlb s3.tlb s3.tlb_size _ q =
                  atualiza_tlb s.tlb s.tlb_size _ q
                rw [htlb3, hts3]
              · intro hf
                exact hfifoA hf
              · intro hl
                exact ⟨s.clock + 1, (hlruA hl).1⟩
            · -- eviction
              have hptv' : dictGet s.page_table v = some (q, b) := hptv
              rcases hpolicy with ⟨hf, ⟨rest, hfifoq, hfifo3⟩, huso3⟩ |
                ⟨hl, ⟨tv, hmk⟩, huso3, hfifo3⟩
              · -- FIFO victim
                have hf' : s.algoritmo = "FIFO" := hf
                have hfq' : s.fifo_queue = v :: rest := hfifoq
                have hmemv : v ∈ s.fifo_queue := by
                  rw [hfq']
                  exact List.mem_cons_self _ _
                obtain ⟨f, hvf⟩ := ((inv.fifo_ok hf').2 v).mp hmemv
                have hqb := hvf.symm.trans hptv'
                simp only [Option.some.injEq, Prod.mk.injEq] at hqb
                obtain ⟨hfq2, hbt⟩ := hqb
                have hvp : v ≠ obter_pagina s.offset_bits (a &&& 65535) := by
                  intro hvpeq
                  rw [hvpeq] at hvf
                  exact hnotres f hvf
                refine Or.inr ⟨v, b, hvp, hptv', hbt.symm, ?_, ?_, ?_⟩
                · exact congrArg (fun d => dictSet d
                    (obter_pagina s.offset_bits (a &&& 65535)) (q, true)) hpt3
                · show atualiza_tlb s3.tlb s3.tlb_size _ q =
                    atualiza_tlb (remover_da_tlb s.tlb v) s.tlb_size _ q
                  rw [htlb3, hts3]
                · exact Or.inl ⟨hf', ⟨rest, hfq', hfifo3⟩, huso3⟩
              · -- LRU victim
                have hl' : s.algoritmo = "LRU" := hl
                have hmemv : (v, tv) ∈ s.uso_recente := minByKey_mem hmk
                obtain ⟨c, hc⟩ := mem_dictGet_isSome hmemv
                obtain ⟨f, hvf⟩ := ((inv.lru_ok hl' v)).mp ⟨c, hc⟩
                have hqb := hvf.symm.trans hptv'
                simp only [Option.some.injEq, Prod.mk.injEq] at hqb
                obtain ⟨hfq2, hbt⟩ := hqb
                have hvp : v ≠ obter_pagina s.offset_bits (a &&& 65535) := by
                  intro hvpeq
                  rw [hvpeq] at hvf
                  exact hnotres f hvf
                refine Or.inr ⟨v, b, hvp, hptv', hbt.symm, ?_, ?_, ?_⟩
                · exact congrArg (fun d => dictSet d
                    (obter_pagina s.offset_bits (a &&& 65535)) (q, true)) hpt3
                · show atualiza_tlb s3.tlb s3.tlb_size _ q =
                    atualiza_tlb (remover_da_tlb s.tlb v) s.tlb_size _ q
                  rw [htlb3, hts3]
                · exact Or.inr ⟨hl', ⟨s.clock + 1, huso3⟩, hfifo3⟩

end MemoryManager

/-- The invariant holds along any successful trace. -/
theorem inv_runTrace {store : Nat → Nat} {s : MemoryManager} {addrs : List Nat}
    {s' : MemoryManager} (inv : SimInv store s)
    (h : runTrace store s addrs = .ok s') : SimInv store s' := by
  induction addrs generalizing s with
  | nil =>
      simp only [runTrace] at h
      cases h
      exact inv
  | cons a rest ih =>
      simp only [runTrace] at h
      split at h
      · next res hstep =>
          exact ih (MemoryManager.inv_acessar inv hstep) h
      · exact absurd h (by simp)

/-- Every reachable state satisfies the invariant. -/
theorem inv_reachable {store : Nat → Nat} {s : MemoryManager}
    (h : Reachable store s) : SimInv store s := by
  obtain ⟨nq, alg, addrs, hrun⟩ := h
  exact inv_runTrace (inv_initState store nq alg) hrun

/-! ### Claim theorems -/

/-- C1: In every reachable state, every TLB entry `(page, frame)` matches a
currently valid page-table entry for that page naming the same frame; in
particular a page whose page-table entry has been invalidated by eviction
has no TLB entry left. -/
theorem c1_tlb_subset_of_valid_mappings {store : Nat → Nat} {s : MemoryManager}
    (h : Reachable store s) :
    (∀ e ∈ s.tlb, dictGet s.page_table e.1 = some (e.2, true)) ∧
    (∀ p f, dictGet s.page_table p = some (f, false) → ∀ e ∈ s.tlb, e.1 ≠ p) := by
  have inv := inv_reachable h
  refine ⟨inv.tlb_pt, ?_⟩
  intro p f hp e he hep
  have hv := inv.tlb_pt e he
  rw [hep, hp] at hv
  simp at hv

/-- Witness for C1 at a concrete reachable state. -/
theorem c1_tlb_subset_of_valid_mappings_witness :
    dictGet (runState store0 2 "FIFO" [0, 256]).page_table 1 = some (1, true) :=
  (c1_tlb_subset_of_valid_mappings
    (⟨2, "FIFO", [0, 256], rfl⟩ :
      Reachable store0 (runState store0 2 "FIFO" [0, 256]))).1 (1, 1) (by decide)

/-- C4: In every reachable state, a page with a valid page-table entry has
its frame's bytes equal to the backing store's `page_size` bytes starting at
offset `pageNumber * pageSize` (what `carrega_pagina` reads). -/
theorem c4_frame_matches_backing_store {store : Nat → Nat} {s : MemoryManager}
    (h : Reachable store s) {p f : Nat}
    (hp : dictGet s.page_table p = some (f, true)) :
    s.physical_memory.get? f = some (some (carrega_pagina 256 store p)) := by
  have inv := inv_reachable h
  exact inv.frame_mem f p (inv.valid_frame p f hp)

/-- Witness for C4 at a concrete reachable state. -/
theorem c4_frame_matches_backing_store_witness :
    (runState store0 1 "FIFO" [0]).physical_memory.get? 0 =
      some (some (carrega_pagina 256 store0 0)) :=
  c4_frame_matches_backing_store
    (⟨1, "FIFO", [0], rfl⟩ : Reachable store0 (runState store0 1 "FIFO" [0]))
    (by decide)

/-- C9: In every reachable state the TLB holds at most its fixed capacity of
16 entries. -/
theorem c9_tlb_capacity {store : Nat → Nat} {s : MemoryManager}
    (h : Reachable store s) : s.tlb.length ≤ 16 :=
  (inv_reachable h).tlb_len

/-- Witness for C9 at a concrete reachable state. -/
theorem c9_tlb_capacity_witness :
    (runState store0 2 "FIFO" [0, 256]).tlb.length ≤ 16 :=
  c9_tlb_capacity
    (⟨2, "FIFO", [0, 256], rfl⟩ :
      Reachable store0 (runState store0 2 "FIFO" [0, 256]))

/-- C10: In every reachable state, two distinct pages that both have valid
page-table entries occupy distinct frames. -/
theorem c10_frames_hold_one_page {store : Nat → Nat} {s : MemoryManager}
    (h : Reachable store s) {p1 p2 f1 f2 : Nat} (hne : p1 ≠ p2)
    (h1 : dictGet s.page_table p1 = some (f1, true))
    (h2 : dictGet s.page_table p2 = some (f2, true)) : f1 ≠ f2 := by
  have inv := inv_reachable h
  intro hf
  subst hf
  have q1 := inv.valid_frame p1 f1 h1
  have q2 := inv.valid_frame p2 f1 h2
  rw [q1] at q2
  simp only [Option.some.injEq] at q2
  exact hne q2

/-- Witness for C10 at a concrete reachable state. -/
theorem c10_frames_hold_one_page_witness : (0 : Nat) ≠ 1 :=
  @c10_frames_hold_one_page store0 (runState store0 2 "FIFO" [0, 256])
    ⟨2, "FIFO", [0, 256], rfl⟩ 0 1 0 1 (by decide) (by decide) (by decide)

/-- C8: The virtual address is masked to 16 bits and then split:
`pageNumber = (va & 0xFFFF) >> 8` and `offset = va & 0xFF`; in particular
`0x1234` yields page 18 and offset 52.  `obter_pagina`/`obter_offset` are
pure functions. -/
theorem c8_address_split (va : Nat) :
    obter_pagina 8 (va &&& 0xFFFF) = (va &&& 0xFFFF) >>> 8 ∧
    obter_offset 8 (va &&& 0xFFFF) = va &&& 0xFF ∧
    obter_pagina 8 (0x1234 &&& 0xFFFF) = 18 ∧
    obter_offset 8 (0x1234 &&& 0xFFFF) = 52 := by
  refine ⟨rfl, ?_, by decide, by decide⟩
  show (va &&& 65535) &&& ((1 <<< 8) - 1) = va &&& 255
  have h1 : ((1 <<< 8) - 1 : Nat) = 255 := by decide
  rw [h1]
  apply Nat.eq_of_testBit_eq
  intro i
  rw [Nat.testBit_land, Nat.testBit_land, Nat.testBit_land]
  have h2 : (65535 : Nat) = 2 ^ 16 - 1 := by norm_num
  have h3 : (255 : Nat) = 2 ^ 8 - 1 := by norm_num
  rw [h2, h3, Nat.testBit_two_pow_sub_one, Nat.testBit_two_pow_sub_one]
  by_cases hi : i < 8
  · have hi16 : i < 16 := Nat.lt_of_lt_of_le hi (by norm_num)
    simp [hi, hi16]
  · simp [hi]

namespace MemoryManager

/-- What every successful `acessar` guarantees about its result: the page's
frame is in the TLB afterwards, the physical address is formed from that
frame and the offset, and the returned value is the memory read performed on
the final state. -/
theorem acessar_ok_spec {store : Nat → Nat} {s : MemoryManager} {a pa : Nat}
    {v : Int} {s' : MemoryManager}
    (h : acessar store s a = .ok ((pa, v), s')) :
    ∃ q, buscar_na_tlb s'.tlb (obter_pagina s.offset_bits (a &&& 65535)) = some q ∧
      pa = (q <<< s.offset_bits) ||| obter_offset s.offset_bits (a &&& 65535) ∧
      ler_memoria s' q (obter_offset s.offset_bits (a &&& 65535)) = .ok v ∧
      s'.offset_bits = s.offset_bits := by
  simp only [acessar] at h
  split at h
  · -- TLB hit
    next quadro hb =>
      obtain ⟨hs', hpa, hread⟩ := finish_ok h
      subst hs'
      refine ⟨quadro, ?_, ?_, hread, ?_⟩
      · rw [lruTouch_tlb]
        exact hb
      · rw [hpa, lruTouch_offset_bits]
      · rw [lruTouch_offset_bits]
  · next hbmiss =>
    split at h
    · -- page-table hit
      next quadro hpt =>
        obtain ⟨hs', hpa, hread⟩ := finish_ok h
        subst hs'
        refine ⟨quadro, ?_, ?_, hread, ?_⟩
        · rw [lruTouch_tlb]
          exact buscar_atualiza_tlb_self hbmiss
        · rw [hpa, lruTouch_offset_bits]
        · rw [lruTouch_offset_bits]
    · -- page fault
      next hnres =>
        cases htr : tratar_page_fault store
            { s with acessos := s.acessos + 1, clock := s.clock + 1,
                     page_faults := s.page_faults + 1 }
            (obter_pagina s.offset_bits (a &&& 65535)) with
        | error e =>
            rw [htr] at h
            simp [Except.bind] at h
        | ok res =>
            obtain ⟨q, s3⟩ := res
            rw [htr] at h
            simp only [Except.bind] at h
            obtain ⟨hs', hpa, hread⟩ := finish_ok h
            subst hs'
            obtain ⟨-, -, -, hob3, -, -, -, -, -, hdisj⟩ := tratar_page_fault_ok htr
            have htlb3 : buscar_na_tlb s3.tlb
                (obter_pagina s.offset_bits (a &&& 65535)) = none := by
              rcases hdisj with ⟨-, -, htlb3, -, -, -⟩ | ⟨v', b', -, -, -, htlb3, -⟩
              · rw [htlb3]
                exact hbmiss
              · rw [htlb3]
                exact buscar_remover_da_tlb_none hbmiss
            refine ⟨q, ?_, ?_, hread, ?_⟩
            · rw [lruTouch_tlb]
              exact buscar_atualiza_tlb_self htlb3
            · rw [hpa, lruTouch_offset_bits]
              show (q <<< s3.offset_bits) ||| _ = _
              rw [hob3]
            · rw [lruTouch_offset_bits]
              show s3.offset_bits = _
              rw [hob3]

end MemoryManager

/-- C6: The value returned by a successful translation is the raw byte at
(frame, offset) of physical memory reinterpreted as a signed two's-complement
8-bit integer (`to_signed`); in particular a raw byte of 200 reads as -56. -/
theorem c6_signed_byte_value {store : Nat → Nat} {s : MemoryManager} {a pa : Nat}
    {v : Int} {s' : MemoryManager}
    (h : MemoryManager.acessar store s a = .ok ((pa, v), s')) :
    (∃ f data b, s'.physical_memory.get? f = some (some data) ∧
      data.get? (obter_offset s.offset_bits (a &&& 0xFFFF)) = some b ∧
      v = to_signed b ∧
      pa = (f <<< s.offset_bits) ||| obter_offset s.offset_bits (a &&& 0xFFFF)) ∧
    to_signed 200 = -56 := by
  refine ⟨?_, by decide⟩
  obtain ⟨q, hb, hpa, hread, hob⟩ := MemoryManager.acessar_ok_spec h
  unfold MemoryManager.ler_memoria at hread
  split at hread
  · next data hmem =>
      split at hread
      · next b hoff =>
          exact ⟨q, data, b, hmem, hoff, (Except.ok.inj hread).symm, hpa⟩
      · exact absurd hread (by simp)
  · exact absurd hread (by simp)

/-- Witness for C6 at a concrete translation. -/
theorem c6_signed_byte_value_witness :
    (∃ f data b, (runState store0 1 "FIFO" [0]).physical_memory.get? f =
        some (some data) ∧
      data.get? (obter_offset (initState 1 "FIFO").offset_bits (0 &&& 0xFFFF)) =
        some b ∧
      (0 : Int) = to_signed b ∧
      (0 : Nat) = (f <<< (initState 1 "FIFO").offset_bits) |||
        obter_offset (initState 1 "FIFO").offset_bits (0 &&& 0xFFFF)) ∧
    to_signed 200 = -56 :=
  c6_signed_byte_value
    (show MemoryManager.acessar store0 (initState 1 "FIFO") 0 =
        .ok ((0, 0), runState store0 1 "FIFO" [0]) from rfl)

namespace MemoryManager

theorem finish_ne_policyError (s : MemoryManager) (q o : Nat) :
    finish s q o ≠ .error .policyError := by
  intro hcontra
  unfold finish ler_memoria at hcontra
  split at hcontra
  · split at hcontra <;> simp [Except.map] at hcontra
  · simp [Except.map] at hcontra

theorem substituicao_fifo_ne_policyError (store : Nat → Nat) (s : MemoryManager)
    (p : Nat) : substituicao_fifo store s p ≠ .error .policyError := by
  intro hcontra
  unfold substituicao_fifo at hcontra
  split at hcontra
  · simp at hcontra
  · split at hcontra <;> simp at hcontra

theorem substituicao_lru_ne_policyError (store : Nat → Nat) (s : MemoryManager)
    (p : Nat) : substituicao_lru store s p ≠ .error .policyError := by
  intro hcontra
  unfold substituicao_lru at hcontra
  split at hcontra
  · simp at hcontra
  · split at hcontra <;> simp at hcontra

theorem tratar_ne_policyError {store : Nat → Nat} {s : MemoryManager} {p : Nat}
    (hpol : s.algoritmo = "FIFO" ∨ s.algoritmo = "LRU") :
    tratar_page_fault store s p ≠ .error .policyError := by
  intro hcontra
  unfold tratar_page_fault at hcontra
  split at hcontra
  · split at hcontra
    · simp at hcontra
    · split at hcontra <;> simp at hcontra
  · split at hcontra
    · exact substituicao_fifo_ne_policyError _ _ _ hcontra
    · split at hcontra
      · exact substituicao_lru_ne_policyError _ _ _ hcontra
      · next hnf hnl =>
          rcases hpol with hf | hl
          · exact hnf hf
          · exact hnl hl

end MemoryManager

/-- C7 counterexample: `MemoryManager.__init__` does **not** reject an
unsupported policy — the instance is constructed (its `algoritmo` is the
upper-cased junk string), and its second translation reaches the
"Algoritmo inválido." abort inside fault handling (the
ReplacementPolicyError branch), which is therefore reachable for a
constructed instance. -/
theorem c7_constructor_counterexample :
    (initState 1 "bad").algoritmo = "BAD" ∧
    runTrace store0 (initState 1 "bad") [0, 256] = .error .policyError :=
  ⟨rfl, rfl⟩

/-- C7 (amended): the constructor performs no policy validation (rejection
of unknown policies happens in the CLI `main`, before construction); what
holds of the core is that for every state whose policy field is FIFO or LRU
— in particular every instance built from a CLI-validated policy name — the
ReplacementPolicyError branch is unreachable: `acessar` never returns
`policyError`. -/
theorem c7_policy_error_unreachable :
    (∀ nq, (initState nq "FIFO").algoritmo = "FIFO" ∧
           (initState nq "LRU").algoritmo = "LRU") ∧
    ∀ (store : Nat → Nat) (s : MemoryManager) (a : Nat),
      s.algoritmo = "FIFO" ∨ s.algoritmo = "LRU" →
      MemoryManager.acessar store s a ≠ .error .policyError := by
  refine ⟨fun nq => ⟨rfl, rfl⟩, ?_⟩
  intro store s a hpol hcontra
  simp only [MemoryManager.acessar] at hcontra
  split at hcontra
  · exact MemoryManager.finish_ne_policyError _ _ _ hcontra
  · split at hcontra
    · exact MemoryManager.finish_ne_policyError _ _ _ hcontra
    · cases htr : MemoryManager.tratar_page_fault store
          { s with acessos := s.acessos + 1, clock := s.clock + 1,
                   page_faults := s.page_faults + 1 }
          (obter_pagina s.offset_bits (a &&& 65535)) with
      | error e =>
          rw [htr] at hcontra
          simp only [Except.bind] at hcontra
          cases hcontra
          exact absurd htr (MemoryManager.tratar_ne_policyError hpol)
      | ok res =>
          rw [htr] at hcontra
          simp only [Except.bind] at hcontra
          exact MemoryManager.finish_ne_policyError _ _ _ hcontra

/-- Witness for the amended C7 at a concrete FIFO state and address. -/
theorem c7_policy_error_unreachable_witness :
    MemoryManager.acessar store0 (initState 1 "FIFO") 0 ≠ .error .policyError :=
  c7_policy_error_unreachable.2 store0 (initState 1 "FIFO") 0 (Or.inl rfl)

namespace MemoryManager

/-- Computation of `acessar` on a TLB hit. -/
theorem acessar_tlb_hit {store : Nat → Nat} {s : MemoryManager} {a q : Nat}
    (hb : buscar_na_tlb s.tlb (obter_pagina s.offset_bits (a &&& 65535)) = some q)
    {w : Int}
    (hv : ler_memoria s q (obter_offset s.offset_bits (a &&& 65535)) = .ok w) :
    acessar store s a = .ok
      (((q <<< s.offset_bits) ||| obter_offset s.offset_bits (a &&& 65535), w),
        lruTouch
          { s with acessos := s.acessos + 1, clock := s.clock + 1,
                   tlb_hits := s.tlb_hits + 1 }
          (obter_pagina s.offset_bits (a &&& 65535))) := by
  simp only [acessar]
  rw [hb]
  show finish
      (lruTouch
        { s with acessos := s.acessos + 1, clock := s.clock + 1,
                 tlb_hits := s.tlb_hits + 1 }
        (obter_pagina s.offset_bits (a &&& 65535)))
      q (obter_offset s.offset_bits (a &&& 65535)) = _
  unfold finish
  have hEq : (lruTouch
      { s with acessos := s.acessos + 1, clock := s.clock + 1,
               tlb_hits := s.tlb_hits + 1 }
      (obter_pagina s.offset_bits (a &&& 65535))).physical_memory =
      s.physical_memory := by
    rw [lruTouch_physical_memory]
  rw [ler_memoria_congr q (obter_offset s.offset_bits (a &&& 65535)) hEq, hv]
  simp only [Except.map]
  rw [lruTouch_offset_bits]

end MemoryManager

/-- C5: Translating the same virtual address twice in a row never faults on
the second call — the second call is a TLB hit, leaves `page_faults`
unchanged, and returns the identical (physicalAddress, value) pair. -/
theorem c5_repeat_access_idempotent {store : Nat → Nat} {s : MemoryManager}
    {a pa : Nat} {v : Int} {s' : MemoryManager}
    (h : MemoryManager.acessar store s a = .ok ((pa, v), s')) :
    ∃ s'', MemoryManager.acessar store s' a = .ok ((pa, v), s'') ∧
      s''.page_faults = s'.page_faults := by
  obtain ⟨q, hb, hpa, hread, hob⟩ := MemoryManager.acessar_ok_spec h
  rw [← hob] at hb hread hpa
  refine ⟨MemoryManager.lruTouch
      { s' with acessos := s'.acessos + 1, clock := s'.clock + 1,
                tlb_hits := s'.tlb_hits + 1 }
      (obter_pagina s'.offset_bits (a &&& 65535)), ?_, ?_⟩
  · rw [hpa]
    exact MemoryManager.acessar_tlb_hit hb hread
  · rw [MemoryManager.lruTouch_page_faults]

/-- Witness for C5 at a concrete translation. -/
theorem c5_repeat_access_idempotent_witness :
    ∃ s'', MemoryManager.acessar store0 (runState store0 1 "FIFO" [0]) 0 =
        .ok ((0, 0), s'') ∧
      s''.page_faults = (runState store0 1 "FIFO" [0]).page_faults :=
  c5_repeat_access_idempotent
    (show MemoryManager.acessar store0 (initState 1 "FIFO") 0 =
        .ok ((0, 0), runState store0 1 "FIFO" [0]) from rfl)

/-- C3: Under FIFO, a fault with no free frame evicts the head of the
residency queue (the earliest still-resident page; every resident page is in
the queue).  Concretely, with 4 frames, touching pages 0..4 in order makes
the 5th access evict page 0 and leaves pages 1..4 resident. -/
theorem c3_fifo_evicts_queue_head :
    (∀ (store : Nat → Nat) (s : MemoryManager) (a : Nat) (out : Nat × Int)
        (s' : MemoryManager),
      Reachable store s → s.algoritmo = "FIFO" →
      MemoryManager.acessar store s a = .ok (out, s') →
      MemoryManager.buscar_na_tlb s.tlb
        (obter_pagina s.offset_bits (a &&& 65535)) = none →
      (∀ f, dictGet s.page_table
        (obter_pagina s.offset_bits (a &&& 65535)) ≠ some (f, true)) →
      index_none s.quadros = none →
      ∃ v rest fv,
        s.fifo_queue = v :: rest ∧
        (∀ p', (∃ f, dictGet s.page_table p' = some (f, true)) →
          p' ∈ s.fifo_queue) ∧
        dictGet s.page_table v = some (fv, true) ∧
        dictGet s'.page_table v = some (fv, false) ∧
        s'.fifo_queue = rest ++ [obter_pagina s.offset_bits (a &&& 65535)]) ∧
    ((runTrace store0 (initState 4 "FIFO") [0, 256, 512, 768, 1024]).map
      (fun s => (dictGet s.page_table 0, dictGet s.page_table 1,
                 dictGet s.page_table 2, dictGet s.page_table 3,
                 dictGet s.page_table 4)) =
      .ok (some (0, false), some (1, true), some (2, true),
           some (3, true), some (0, true))) := by
  constructor
  · intro store s a out s' hreach halg hacc hmiss hnres hfull
    have inv := inv_reachable hreach
    obtain ⟨pa, v0⟩ := out
    simp only [MemoryManager.acessar] at hacc
    split at hacc
    · next quadro hb =>
        rw [hmiss] at hb
        cases hb
    · cases htr : MemoryManager.tratar_page_fault store
          { s with acessos := s.acessos + 1, clock := s.clock + 1,
                   page_faults := s.page_faults + 1 }
          (obter_pagina s.offset_bits (a &&& 65535)) with
      | error e =>
          rw [htr] at hacc
          simp [Except.bind] at hacc
      | ok res =>
          obtain ⟨q, s3⟩ := res
          rw [htr] at hacc
          simp only [Except.bind] at hacc
          obtain ⟨hs', -, -⟩ := MemoryManager.finish_ok hacc
          subst hs'
          obtain ⟨-, -, -, -, -, -, -, -, -, hdisj⟩ :=
            MemoryManager.tratar_page_fault_ok htr
          rcases hdisj with ⟨hidx, -, -, -, -, -⟩ |
            ⟨v, b, hidx, hptv, hpt3, htlb3, hpolicy⟩
          · rw [hfull] at hidx
            cases hidx
          · rcases hpolicy with ⟨-, ⟨rest, hfq, hfifo3⟩, -⟩ |
              ⟨hl, -, -, -⟩
            · have hfq' : s.fifo_queue = v :: rest := hfq
              have hmemv : v ∈ s.fifo_queue := by
                rw [hfq']
                exact List.mem_cons_self _ _
              obtain ⟨f, hvf⟩ := ((inv.fifo_ok halg).2 v).mp hmemv
              have hptv' : dictGet s.page_table v = some (q, b) := hptv
              have hqb := hvf.symm.trans hptv'
              simp only [Option.some.injEq, Prod.mk.injEq] at hqb
              obtain ⟨hfq2, hbt⟩ := hqb
              subst hfq2
              have hvp : v ≠ obter_pagina s.offset_bits (a &&& 65535) := by
                intro hvpeq
                rw [hvpeq] at hvf
                exact hnres f hvf
              refine ⟨v, rest, f, hfq',
                fun p' hp' => ((inv.fifo_ok halg).2 p').mpr hp', hvf, ?_, ?_⟩
              · rw [MemoryManager.lruTouch_page_table]
                show dictGet (dictSet s3.page_table
                  (obter_pagina s.offset_bits (a &&& 65535)) (f, true)) v =
                  some (f, false)
                rw [dictGet_dictSet_ne _ _ hvp, hpt3, dictGet_dictSet_self]
              · rw [MemoryManager.lruTouch_fifo_queue]
                show s3.fifo_queue = _
                rw [hfifo3]
            · have hl' : s.algoritmo = "LRU" := hl
              rw [halg] at hl'
              exact absurd hl' (by decide)
  · rfl

/-- Witness for C3's general statement at the concrete FIFO trace. -/
theorem c3_fifo_evicts_queue_head_witness :
    ∃ v rest fv,
      (runState store0 4 "FIFO" [0, 256, 512, 768]).fifo_queue = v :: rest ∧
      (∀ p', (∃ f, dictGet (runState store0 4 "FIFO"
          [0, 256, 512, 768]).page_table p' = some (f, true)) →
        p' ∈ (runState store0 4 "FIFO" [0, 256, 512, 768]).fifo_queue) ∧
      dictGet (runState store0 4 "FIFO" [0, 256, 512, 768]).page_table v =
        some (fv, true) ∧
      dictGet (runState store0 4 "FIFO" [0, 256, 512, 768, 1024]).page_table v =
        some (fv, false) ∧
      (runState store0 4 "FIFO" [0, 256, 512, 768, 1024]).fifo_queue =
        rest ++ [obter_pagina
          (runState store0 4 "FIFO" [0, 256, 512, 768]).offset_bits
          (1024 &&& 65535)] :=
  c3_fifo_evicts_queue_head.1 store0 (runState store0 4 "FIFO" [0, 256, 512, 768])
    1024 ((0 <<< 8) ||| 0, 0) (runState store0 4 "FIFO" [0, 256, 512, 768, 1024])
    ⟨4, "FIFO", [0, 256, 512, 768], rfl⟩ rfl (by rfl) rfl
    (by
      intro f hcontra
      have hn : dictGet (runState store0 4 "FIFO"
          [0, 256, 512, 768]).page_table
          (obter_pagina (runState store0 4 "FIFO"
            [0, 256, 512, 768]).offset_bits (1024 &&& 65535)) = none := by rfl
      rw [hn] at hcontra
      cases hcontra)
    rfl

/-- C2: Under LRU, a fault with no free frame evicts the resident page whose
timestamp is minimal, ties broken by earliest insertion into the timestamp
dictionary (every entry before the victim has a strictly greater timestamp,
and every resident page has an entry); timestamps are refreshed on every
access, so with 4 frames, loading pages 0..3, re-touching page 0 and then
loading page 4 evicts page 1, not page 0. -/
theorem c2_lru_evicts_min_timestamp :
    (∀ (store : Nat → Nat) (s : MemoryManager) (a : Nat) (out : Nat × Int)
        (s' : MemoryManager),
      Reachable store s → s.algoritmo = "LRU" →
      MemoryManager.acessar store s a = .ok (out, s') →
      MemoryManager.buscar_na_tlb s.tlb
        (obter_pagina s.offset_bits (a &&& 65535)) = none →
      (∀ f, dictGet s.page_table
        (obter_pagina s.offset_bits (a &&& 65535)) ≠ some (f, true)) →
      index_none s.quadros = none →
      ∃ v tv d1 d2 fv,
        s.uso_recente = d1 ++ (v, tv) :: d2 ∧
        (∀ e ∈ s.uso_recente, tv ≤ e.2) ∧
        (∀ e ∈ d1, tv < e.2) ∧
        dictGet s.page_table v = some (fv, true) ∧
        (∀ p', (∃ f, dictGet s.page_table p' = some (f, true)) →
          ∃ c, dictGet s.uso_recente p' = some c) ∧
        dictGet s'.page_table v = some (fv, false)) ∧
    ((runTrace store0 (initState 4 "LRU") [0, 256, 512, 768, 0, 1024]).map
      (fun s => (dictGet s.page_table 0, dictGet s.page_table 1,
                 dictGet s.page_table 4)) =
      .ok (some (0, true), some (1, false), some (1, true))) := by
  constructor
  · intro store s a out s' hreach halg hacc hmiss hnres hfull
    have inv := inv_reachable hreach
    obtain ⟨pa, v0⟩ := out
    simp only [MemoryManager.acessar] at hacc
    split at hacc
    · next quadro hb =>
        rw [hmiss] at hb
        cases hb
    · cases htr : MemoryManager.tratar_page_fault store
          { s with acessos := s.acessos + 1, clock := s.clock + 1,
                   page_faults := s.page_faults + 1 }
          (obter_pagina s.offset_bits (a &&& 65535)) with
      | error e =>
          rw [htr] at hacc
          simp [Except.bind] at hacc
      | ok res =>
          obtain ⟨q, s3⟩ := res
          rw [htr] at hacc
          simp only [Except.bind] at hacc
          obtain ⟨hs', -, -⟩ := MemoryManager.finish_ok hacc
          subst hs'
          obtain ⟨-, -, -, -, -, -, -, -, -, hdisj⟩ :=
            MemoryManager.tratar_page_fault_ok htr
          rcases hdisj with ⟨hidx, -, -, -, -, -⟩ |
            ⟨v, b, hidx, hptv, hpt3, htlb3, hpolicy⟩
          · rw [hfull] at hidx
            cases hidx
          · rcases hpolicy with ⟨hf, -, -⟩ |
              ⟨-, ⟨tv, hmk⟩, -, -⟩
            · have hf' : s.algoritmo = "FIFO" := hf
              rw [halg] at hf'
              exact absurd hf' (by decide)
            · have hmk' : minByKey s.uso_recente = some (v, tv) := hmk
              obtain ⟨d1, d2, hsplit, hd1⟩ := minByKey_split hmk'
              obtain ⟨c, hc⟩ := mem_dictGet_isSome (minByKey_mem hmk')
              obtain ⟨f, hvf⟩ := (inv.lru_ok halg v).mp ⟨c, hc⟩
              have hptv' : dictGet s.page_table v = some (q, b) := hptv
              have hqb := hvf.symm.trans hptv'
              simp only [Option.some.injEq, Prod.mk.injEq] at hqb
              obtain ⟨hfq2, hbt⟩ := hqb
              subst hfq2
              have hvp : v ≠ obter_pagina s.offset_bits (a &&& 65535) := by
                intro hvpeq
                rw [hvpeq] at hvf
                exact hnres f hvf
              refine ⟨v, tv, d1, d2, f, hsplit, minByKey_le hmk', hd1, hvf,
                fun p' hp' => (inv.lru_ok halg p').mpr hp', ?_⟩
              rw [MemoryManager.lruTouch_page_table]
              show dictGet (dictSet s3.page_table
                (obter_pagina s.offset_bits (a &&& 65535)) (f, true)) v =
                some (f, false)
              rw [dictGet_dictSet_ne _ _ hvp, hpt3, dictGet_dictSet_self]
  · rfl

/-- Witness for C2's general statement at the concrete LRU trace. -/
theorem c2_lru_evicts_min_timestamp_witness :
    ∃ v tv d1 d2 fv,
      (runState store0 4 "LRU" [0, 256, 512, 768, 0]).uso_recente =
        d1 ++ (v, tv) :: d2 ∧
      (∀ e ∈ (runState store0 4 "LRU" [0, 256, 512, 768, 0]).uso_recente,
        tv ≤ e.2) ∧
      (∀ e ∈ d1, tv < e.2) ∧
      dictGet (runState store0 4 "LRU" [0, 256, 512, 768, 0]).page_table v =
        some (fv, true) ∧
      (∀ p', (∃ f, dictGet (runState store0 4 "LRU"
          [0, 256, 512, 768, 0]).page_table p' = some (f, true)) →
        ∃ c, dictGet (runState store0 4 "LRU"
          [0, 256, 512, 768, 0]).uso_recente p' = some c) ∧
      dictGet (runState store0 4 "LRU"
        [0, 256, 512, 768, 0, 1024]).page_table v = some (fv, false) :=
  c2_lru_evicts_min_timestamp.1 store0
    (runState store0 4 "LRU" [0, 256, 512, 768, 0]) 1024
    ((1 <<< 8) ||| 0, 0) (runState store0 4 "LRU" [0, 256, 512, 768, 0, 1024])
    ⟨4, "LRU", [0, 256, 512, 768, 0], rfl⟩ rfl (by rfl) rfl
    (by
      intro f hcontra
      have hn : dictGet (runState store0 4 "LRU"
          [0, 256, 512, 768, 0]).page_table
          (obter_pagina (runState store0 4 "LRU"
            [0, 256, 512, 768, 0]).offset_bits (1024 &&& 65535)) = none := by rfl
      rw [hn] at hcontra
      cases hcontra)
    rfl
